import Mathlib

/-!
# Verification of the collaborative text patching core

This file gives a shallow embedding, over `List Char`, of the `patching`
package of the CodeCollaborate server (file `src/unnamed/part_001`:
`Patch`, `NewPatchFromString`, `Patch.String`, `Patch.Transform`,
`Patch.Undo`), together with models of the `Diff` operations that the
repository snapshot does not contain (`NewDiffFromString`, `Diff.String`,
`Diff.transform`, `Diff.Undo`, application to a base string), which are
modelled from the specification.

Text is represented as `List Char`; Go's `int64` base versions are
represented as `Int` (the arithmetic used by the claims is identical on
both sides of every equation, so wrap-around affects neither).
-/

namespace Patching

/-- A single insertion or deletion at an absolute character offset.
Modelled from the spec: the `Diff` record of §3 (the `Diff` type itself is
absent from the repository snapshot; only the `patching` `Patch` code that
uses it is present). -/
structure Diff where
  insertion : Bool
  offset : Nat
  text : List Char
deriving DecidableEq, Repr

/-- `Diffs` is the list-of-diffs alias used by the source. -/
abbrev Diffs := List Diff

/-- A set of changes to a versioned document, from `type Patch struct`
in the source: a base version and an ordered list of changes. -/
structure Patch where
  BaseVersion : Int
  Changes : Diffs
deriving DecidableEq, Repr

/-- Embedding of Go's `strings.Split(s, sep)` for a two-character
separator `[a, b]`: splits around each leftmost, non-overlapping
occurrence of the separator.  The source only ever splits on `":\n"`
and `",\n"`. -/
def split2 (a b : Char) : List Char → List (List Char)
  | [] => [[]]
  | [c] => [[c]]
  | c :: d :: rest =>
    if c = a ∧ d = b then
      [] :: split2 a b rest
    else
      match split2 a b (d :: rest) with
      | [] => [[c]]
      | t :: ts => (c :: t) :: ts

/-- `hasSeq a b s` is true when the two-character sequence `[a, b]`
occurs in `s`. -/
def hasSeq (a b : Char) : List Char → Bool
  | [] => false
  | [_] => false
  | c :: d :: rest => (c = a && d = b) || hasSeq a b (d :: rest)

/-- Is `c` a decimal digit? -/
def isDigitChar (c : Char) : Bool := 48 ≤ c.toNat && c.toNat ≤ 57

/-- One Horner step of decimal accumulation. -/
def digitStep (a : Nat) (c : Char) : Nat := 10 * a + (c.toNat - 48)

/-- Numeric value of a string of decimal digits (most significant first),
accumulated Horner-style; junk characters contribute their code points. -/
def digitsVal (s : List Char) : Nat :=
  s.foldl digitStep 0

/-- Parse a non-empty all-digit string as a `Nat`; no sign allowed.
Used for the `u32` offset and length fields of a diff.
Modelled from the spec: the wire format fields are `<u32>` decimal. -/
def parseU32 (s : List Char) : Option Nat :=
  if s ≠ [] ∧ s.all isDigitChar then
    if digitsVal s < 2 ^ 32 then some (digitsVal s) else none
  else none

/-- Embedding of Go's `strconv.ParseInt(s, 10, 64)`: an optional sign
followed by at least one decimal digit, value within the `int64` range. -/
def parseInt64 (s : List Char) : Option Int :=
  match s with
  | [] => none
  | c :: r =>
    if c = '+' then
      match parseU63 r with
      | some n => some (n : Int)
      | none => none
    else if c = '-' then
      if r ≠ [] ∧ r.all isDigitChar then
        if digitsVal r ≤ 2 ^ 63 then some (-(digitsVal r : Int)) else none
      else none
    else
      match parseU63 (c :: r) with
      | some n => some (n : Int)
      | none => none
where
  /-- digits with value at most `2^63 - 1`. -/
  parseU63 (s : List Char) : Option Nat :=
    if s ≠ [] ∧ s.all isDigitChar then
      if digitsVal s ≤ 2 ^ 63 - 1 then some (digitsVal s) else none
    else none

/-- Decimal digits of `n`, most significant first, computed with
explicit fuel (`fuel ≥ n` suffices); empty for `n = 0`. -/
def natDigitsAux : Nat → Nat → List Char
  | 0, _ => []
  | _ + 1, 0 => []
  | fuel + 1, n + 1 =>
    natDigitsAux fuel ((n + 1) / 10) ++ [Char.ofNat (48 + (n + 1) % 10)]

/-- Decimal rendering of a `Nat` (Go `fmt.Sprintf("%d", ·)` for
non-negative values). -/
def natToString (n : Nat) : List Char :=
  if n = 0 then ['0'] else natDigitsAux n n

/-- Decimal rendering of an `Int` (Go `fmt.Sprintf("%d", ·)`). -/
def intToString (i : Int) : List Char :=
  if i < 0 then '-' :: natToString (-i).toNat else natToString i.toNat

/-- Is `c` a character other than `:`? -/
def notColon (c : Char) : Bool := !(c == ':')

/-- Parsing a diff from its string form `<offset>:<op><length>:<text>`.
Modelled from the spec: `NewDiffFromString` is absent from the repository
snapshot; per §4.1/§6/§7 the parser rejects a missing field, an `<op>`
other than `+` or `-`, a non-numeric offset or length, and a declared
length that disagrees with the actual text length. -/
def NewDiffFromString (s : List Char) : Option Diff :=
  let offsetPart := s.takeWhile notColon
  match s.dropWhile notColon with
  | ':' :: op :: rest2 =>
    if op = '+' ∨ op = '-' then
      let lenPart := rest2.takeWhile notColon
      match rest2.dropWhile notColon with
      | ':' :: text =>
        match parseU32 offsetPart, parseU32 lenPart with
        | some off, some len =>
          if text.length = len then some ⟨op = '+', off, text⟩ else none
        | _, _ => none
      | _ => none
    else none
  | _ => none

/-- `NewPatchFromString` from the source: split the input on `":\n"`,
require at least two parts, require the first part to have length at
least 2, parse the first part minus its first character as the base
version, split the second part on `",\n"` and parse each fragment as a
diff.  Anything after a second `":\n"` is ignored. -/
def NewPatchFromString (s : List Char) : Option Patch :=
  match split2 ':' '\n' s with
  | p0 :: p1 :: _ =>
    if p0.length ≤ 1 then none
    else
      match parseInt64 (p0.drop 1) with
      | none => none
      | some v =>
        match (split2 ',' '\n' p1).mapM NewDiffFromString with
        | some ds => some ⟨v, ds⟩
        | none => none
  | _ => none

/-- String form of a diff: `<offset>:<op><length>:<text>`.
Modelled from the spec: `Diff.String` is absent from the repository
snapshot; §4.1 fixes the three colon-separated fields. -/
def Diff.String (d : Diff) : List Char :=
  natToString d.offset ++ ':' :: (if d.insertion then '+' else '-') ::
    (natToString d.text.length ++ ':' :: d.text)

/-- Join a list of rendered diffs with the `",\n"` separator, mirroring
the writer loop of `Patch.String` (first diff, then `",\n" + diff` for
each remaining one; empty output for an empty list). -/
def sepJoin : List (List Char) → List Char
  | [] => []
  | [s] => s
  | s :: t :: rest => s ++ ',' :: '\n' :: sepJoin (t :: rest)

/-- `Patch.String` from the source: `"v" + base version + ":\n"` followed
by the diffs joined with `",\n"`. -/
def Patch.String (p : Patch) : List Char :=
  'v' :: intToString p.BaseVersion ++ ':' :: '\n' :: sepJoin (p.Changes.map Diff.String)

/-- Pairwise operational transform of `a` against a previously applied
diff `b`, producing zero, one or two diffs.
Modelled from the spec: `Diff.transform`'s pairwise core is absent from
the repository snapshot; the case analysis is §4.1.1 verbatim. -/
def Diff.transformPair (a b : Diff) : List Diff :=
  if b.insertion then
    if a.insertion then
      if b.offset ≤ a.offset then [⟨a.insertion, a.offset + b.text.length, a.text⟩]
      else [a]
    else
      if b.offset ≤ a.offset then [⟨a.insertion, a.offset + b.text.length, a.text⟩]
      else if a.offset + a.text.length ≤ b.offset then [a]
      else
        [⟨false, a.offset, a.text.take (b.offset - a.offset)⟩,
         ⟨false, b.offset + b.text.length, a.text.drop (b.offset - a.offset)⟩]
  else
    if a.insertion then
      if b.offset + b.text.length ≤ a.offset then
        [⟨a.insertion, a.offset - b.text.length, a.text⟩]
      else if a.offset ≤ b.offset then [a]
      else [⟨true, b.offset, a.text⟩]
    else
      if b.offset + b.text.length ≤ a.offset then
        [⟨a.insertion, a.offset - b.text.length, a.text⟩]
      else if a.offset + a.text.length ≤ b.offset then [a]
      else
        let newText := a.text.take (b.offset - a.offset) ++
          a.text.drop (b.offset + b.text.length - a.offset)
        if newText = [] then [] else [⟨false, min a.offset b.offset, newText⟩]

/-- Transform of a diff against a list of previously applied diffs.
Modelled from the spec: §4.1.2 — maintain an intermediate list, initially
the singleton, and replace every element by its pairwise transform,
concatenated. -/
def Diff.transform (a : Diff) (bs : Diffs) : Diffs :=
  bs.foldl (fun xs b => xs.flatMap (fun x => x.transformPair b)) [a]

/-- `Patch.Transform` from the source: fold over the other patches,
transforming every intermediate diff against the other patch's changes
and tracking the largest base version seen (starting from
`BaseVersion - 1`); the result carries that maximum plus one. -/
def Patch.Transform (p : Patch) (others : List Patch) : Patch :=
  let r := others.foldl
    (fun (acc : Diffs × Int) o =>
      (acc.1.flatMap (fun d => d.transform o.Changes), max acc.2 o.BaseVersion))
    (p.Changes, p.BaseVersion - 1)
  ⟨r.2 + 1, r.1⟩

/-- Inverse of a single diff: flip `insertion`, keep `offset` and `text`.
Modelled from the spec: `Diff.Undo` is absent from the repository
snapshot; §4.1 "Undo". -/
def Diff.Undo (d : Diff) : Diff := ⟨!d.insertion, d.offset, d.text⟩

/-- The loop body of `Patch.Undo` in the source: iterate `i` from
`n - 1` down to `0`, appending `Changes[i].Undo()`. -/
def undoAux (cs : Diffs) : Nat → Diffs
  | 0 => []
  | i + 1 =>
    (match cs.get? i with
     | some d => [d.Undo]
     | none => []) ++ undoAux cs i

/-- `Patch.Undo` from the source: same base version, changes collected in
reverse index order, each individually inverted. -/
def Patch.Undo (p : Patch) : Patch :=
  ⟨p.BaseVersion, undoAux p.Changes p.Changes.length⟩

/-- Application of a single diff to a base string.
Modelled from the spec: §4.1 "Apply-to-string" with the
**InvalidBase** / **OffsetOutOfRange** failures of §7 rendered as `none`. -/
def applyDiff (s : List Char) (d : Diff) : Option (List Char) :=
  if d.insertion then
    if d.offset ≤ s.length then
      some (s.take d.offset ++ d.text ++ s.drop d.offset)
    else none
  else
    if d.offset + d.text.length ≤ s.length ∧
        (s.drop d.offset).take d.text.length = d.text then
      some (s.take d.offset ++ s.drop (d.offset + d.text.length))
    else none

/-- Application of a patch to a base string: the diffs are applied left
to right, each in the string produced by its predecessors (§3). -/
def applyPatch (s : List Char) (p : Patch) : Option (List Char) :=
  p.Changes.foldlM applyDiff s

/-- Conditions on a diff's text under which the printed patch survives
the patch parser's `":\n"` / `",\n"` splitting: the text does not begin
with a newline (which would put `":\n"` into the printed diff) and
contains neither the sequence `":\n"` nor the sequence `",\n"`. -/
def textOk (t : List Char) : Prop :=
  t.head? ≠ some '\n' ∧ hasSeq ':' '\n' t = false ∧ hasSeq ',' '\n' t = false

/-- Well-formedness of a diff for the print/parse round trip: the `u32`
wire bounds on offset and length, plus `textOk`. -/
def diffOk (d : Diff) : Prop :=
  d.offset < 2 ^ 32 ∧ d.text.length < 2 ^ 32 ∧ textOk d.text

instance (t : List Char) : Decidable (textOk t) := by
  unfold textOk
  infer_instance

instance (d : Diff) : Decidable (diffOk d) := by
  unfold diffOk
  infer_instance

/-- Largest base version among a list of patches (meaningful for
non-empty lists; junk head value otherwise). -/
def maxBaseVersion : List Patch → Int
  | [] => 0
  | o :: os => os.foldl (fun m q => max m q.BaseVersion) o.BaseVersion

end Patching

namespace Patching

/-! ## Splitting lemmas -/

theorem split2_ne_nil (a b : Char) (s : List Char) : split2 a b s ≠ [] := by
  induction s using split2.induct a b with
  | case1 => simp [split2]
  | case2 c => simp [split2]
  | case3 c d rest h ih => simp [split2, h]
  | case4 c d rest h hnil ih => exact absurd hnil (ih)
  | case5 c d rest h t ts heq ih => simp [split2, h, heq]

theorem split2_of_not_hasSeq (a b : Char) (s : List Char)
    (hs : hasSeq a b s = false) : split2 a b s = [s] := by
  induction s using split2.induct a b with
  | case1 => simp [split2]
  | case2 c => simp [split2]
  | case3 c d rest h ih =>
    exfalso
    simp [hasSeq, h.1, h.2] at hs
  | case4 c d rest h hnil ih => exact absurd hnil (split2_ne_nil a b (d :: rest))
  | case5 c d rest h t ts heq ih =>
    have hs' : hasSeq a b (d :: rest) = false := by
      simp only [hasSeq, Bool.or_eq_false_iff] at hs
      exact hs.2
    rw [ih hs'] at heq
    cases heq
    simp [split2, h, ih hs']

theorem split2_append (a b : Char) (hab : a ≠ b) (x y : List Char)
    (hx : hasSeq a b x = false) :
    split2 a b (x ++ a :: b :: y) = x :: split2 a b y := by
  induction x using split2.induct a b with
  | case1 => simp [split2]
  | case2 c =>
    have hc : ¬(c = a ∧ a = b) := fun h => hab h.2
    have h1 : split2 a b (a :: b :: y) = [] :: split2 a b y := by simp [split2]
    simp only [List.singleton_append]
    rw [split2, if_neg hc, h1]
  | case3 c d rest h ih =>
    exfalso
    simp [hasSeq, h.1, h.2] at hx
  | case4 c d rest h hnil ih => exact absurd hnil (split2_ne_nil a b (d :: rest))
  | case5 c d rest h t ts heq ih =>
    have hx' : hasSeq a b (d :: rest) = false := by
      simp only [hasSeq, Bool.or_eq_false_iff] at hx
      exact hx.2
    have ihx := ih hx'
    simp only [List.cons_append] at ihx ⊢
    rw [split2, if_neg h, ihx]

theorem split2_cons_head_shape (a b x : Char) (xs : List Char) (t : List Char)
    (ts : List (List Char)) (h : split2 a b (x :: xs) = t :: ts) :
    t = [] ∨ ∃ u, t = x :: u := by
  cases xs with
  | nil =>
    simp [split2] at h
    right
    exact ⟨[], by simp [h.1]⟩
  | cons y ys =>
    by_cases hxy : x = a ∧ y = b
    · rw [split2, if_pos hxy] at h
      left
      exact (List.cons.injEq _ _ _ _ ▸ h).1.symm
    · rw [split2, if_neg hxy] at h
      cases h2 : split2 a b (y :: ys) with
      | nil => exact absurd h2 (split2_ne_nil a b (y :: ys))
      | cons t0 ts0 =>
        rw [h2] at h
        right
        exact ⟨t0, ((List.cons.injEq _ _ _ _).mp h).1.symm⟩

theorem hasSeq_of_mem_split2 (a b : Char) (s : List Char) :
    ∀ t ∈ split2 a b s, hasSeq a b t = false := by
  induction s using split2.induct a b with
  | case1 =>
    intro t ht
    simp [split2] at ht
    simp [ht, hasSeq]
  | case2 c =>
    intro t ht
    simp [split2] at ht
    simp [ht, hasSeq]
  | case3 c d rest h ih =>
    intro t ht
    rw [split2, if_pos h, List.mem_cons] at ht
    rcases ht with ht | ht
    · simp [ht, hasSeq]
    · exact ih t ht
  | case4 c d rest h hnil ih => exact absurd hnil (split2_ne_nil a b (d :: rest))
  | case5 c d rest h t0 ts heq ih =>
    intro t ht
    rw [split2, if_neg h, heq, List.mem_cons] at ht
    rcases ht with ht | ht
    · subst ht
      rcases split2_cons_head_shape a b d rest t0 ts heq with h0 | ⟨u, h0⟩
      · subst h0
        simp [hasSeq]
      · subst h0
        have h1 : hasSeq a b (d :: u) = false := by
          apply ih
          rw [heq]
          exact List.mem_cons_self _ _
        rw [hasSeq]
        simp only [Bool.or_eq_false_iff]
        constructor
        · simp only [Bool.and_eq_false_iff, decide_eq_false_iff_not]
          by_cases hc : c = a
          · right
            intro hd
            exact h ⟨hc, hd⟩
          · left
            exact hc
        · exact h1
    · apply ih
      rw [heq]
      exact List.mem_cons_of_mem _ ht

theorem hasSeq_append_false (a b : Char) (xs ys : List Char)
    (h1 : hasSeq a b xs = false) (h2 : hasSeq a b ys = false)
    (h3 : ¬(xs.getLast? = some a ∧ ys.head? = some b)) :
    hasSeq a b (xs ++ ys) = false := by
  induction xs using hasSeq.induct a b with
  | case1 => simpa using h2
  | case2 c =>
    cases ys with
    | nil => simp [hasSeq]
    | cons y ys' =>
      simp only [List.singleton_append, hasSeq, Bool.or_eq_false_iff]
      refine ⟨?_, h2⟩
      simp only [Bool.and_eq_false_iff, decide_eq_false_iff_not]
      by_cases hc : c = a
      · right
        intro hy
        exact h3 ⟨by simp [hc], by simp [hy]⟩
      · left
        exact hc
  | case3 c d rest ih =>
    simp only [hasSeq, Bool.or_eq_false_iff] at h1
    simp only [List.cons_append, hasSeq, Bool.or_eq_false_iff]
    refine ⟨h1.1, ?_⟩
    have : (d :: rest).getLast? = (c :: d :: rest).getLast? := by
      simp [List.getLast?_cons_cons]
    exact ih h1.2 (this ▸ h3)

/-! ## Decimal digit lemmas -/

theorem hasSeq_false_of_ne_a (a b : Char) (s : List Char)
    (h : ∀ c ∈ s, c ≠ a) : hasSeq a b s = false := by
  induction s using hasSeq.induct a b with
  | case1 => rfl
  | case2 c => rfl
  | case3 c d rest ih =>
    rw [hasSeq]
    simp only [Bool.or_eq_false_iff]
    refine ⟨?_, ih fun x hx => h x (List.mem_cons_of_mem _ hx)⟩
    simp only [Bool.and_eq_false_iff, decide_eq_false_iff_not]
    exact Or.inl (h c (List.mem_cons_self _ _))

theorem digit_char_toNat (m : Nat) (h : m < 10) :
    (Char.ofNat (48 + m)).toNat = 48 + m := by
  interval_cases m <;> decide

theorem digit_char_isDigit (m : Nat) (h : m < 10) :
    isDigitChar (Char.ofNat (48 + m)) = true := by
  interval_cases m <;> decide

theorem isDigitChar_ne (c x : Char) (h : isDigitChar c = true)
    (hx : isDigitChar x = false) : c ≠ x := by
  intro e
  rw [e, hx] at h
  exact Bool.false_ne_true h

theorem natDigitsAux_digits :
    ∀ fuel n, ∀ c ∈ natDigitsAux fuel n, isDigitChar c = true := by
  intro fuel
  induction fuel with
  | zero => intro n c hc; simp [natDigitsAux] at hc
  | succ fuel ih =>
    intro n c hc
    match n with
    | 0 => simp [natDigitsAux] at hc
    | m + 1 =>
      rw [natDigitsAux] at hc
      rcases List.mem_append.mp hc with hc | hc
      · exact ih _ c hc
      · rw [List.mem_singleton.mp hc]
        exact digit_char_isDigit _ (Nat.mod_lt _ (by norm_num))

theorem natDigitsAux_foldl :
    ∀ fuel n, n ≤ fuel → ∀ acc,
      (natDigitsAux fuel n).foldl digitStep acc =
        acc * 10 ^ (natDigitsAux fuel n).length + n := by
  intro fuel
  induction fuel with
  | zero =>
    intro n hn acc
    rw [Nat.le_zero.mp hn]
    simp [natDigitsAux]
  | succ fuel ih =>
    intro n hn acc
    match n with
    | 0 => simp [natDigitsAux]
    | m + 1 =>
      rw [natDigitsAux]
      have hdiv : (m + 1) / 10 ≤ fuel :=
        Nat.le_of_lt_succ (Nat.lt_of_lt_of_le (Nat.div_lt_self (Nat.succ_pos m) (by norm_num)) hn)
      rw [List.foldl_append, ih _ hdiv acc]
      simp only [List.foldl_cons, List.foldl_nil, digitStep, List.length_append,
        List.length_singleton]
      rw [digit_char_toNat _ (Nat.mod_lt _ (by norm_num))]
      have hmod : 10 * ((m + 1) / 10) + (m + 1) % 10 = m + 1 := Nat.div_add_mod _ _
      ring_nf
      omega

theorem natToString_ne_nil (n : Nat) : natToString n ≠ [] := by
  rw [natToString]
  split
  · simp
  · rename_i hn
    match hf : n, hn with
    | m + 1, _ =>
      rw [natDigitsAux]
      simp

theorem natToString_digits (n : Nat) : ∀ c ∈ natToString n, isDigitChar c = true := by
  intro c hc
  rw [natToString] at hc
  split at hc
  · rw [List.mem_singleton.mp hc]; decide
  · exact natDigitsAux_digits _ _ c hc

theorem digitsVal_natToString (n : Nat) : digitsVal (natToString n) = n := by
  rw [natToString, digitsVal]
  split
  · rename_i h; rw [h]; decide
  · rename_i h
    match n, h with
    | m + 1, _ =>
      rw [natDigitsAux_foldl (m + 1) (m + 1) le_rfl 0]
      simp

theorem parseU32_natToString (n : Nat) (h : n < 2 ^ 32) :
    parseU32 (natToString n) = some n := by
  rw [parseU32, if_pos, digitsVal_natToString, if_pos h]
  refine ⟨natToString_ne_nil n, ?_⟩
  rw [List.all_eq_true]
  exact natToString_digits n

theorem parseU63_natToString (n : Nat) (h : n ≤ 2 ^ 63 - 1) :
    parseInt64.parseU63 (natToString n) = some n := by
  rw [parseInt64.parseU63, if_pos, digitsVal_natToString, if_pos h]
  refine ⟨natToString_ne_nil n, ?_⟩
  rw [List.all_eq_true]
  exact natToString_digits n

theorem parseInt64_intToString (v : Int) (h1 : -(2 ^ 63) ≤ v) (h2 : v < 2 ^ 63) :
    parseInt64 (intToString v) = some v := by
  by_cases hv : v < 0
  · rw [intToString, if_pos hv]
    have hm : ((-v).toNat : Int) = -v := Int.toNat_of_nonneg (by omega)
    have hne : natToString (-v).toNat ≠ [] := natToString_ne_nil _
    rw [parseInt64]
    rw [if_neg (by decide), if_pos rfl, if_pos, digitsVal_natToString, if_pos (by omega)]
    · congr 1
      omega
    · refine ⟨hne, ?_⟩
      rw [List.all_eq_true]
      exact natToString_digits _
  · rw [intToString, if_neg hv]
    obtain ⟨c, r, e⟩ : ∃ c r, natToString v.toNat = c :: r := by
      cases he : natToString v.toNat with
      | nil => exact absurd he (natToString_ne_nil _)
      | cons c r => exact ⟨c, r, rfl⟩
    have hc : isDigitChar c = true := natToString_digits v.toNat c (by rw [e]; simp)
    rw [e, parseInt64]
    rw [if_neg (isDigitChar_ne c '+' hc (by decide)),
      if_neg (isDigitChar_ne c '-' hc (by decide)), ← e,
      parseU63_natToString v.toNat (by omega)]
    simp only
    congr 1
    omega

/-! ## Diff print/parse round trip -/

theorem takeWhile_append_cons {α : Type} (p : α → Bool) (xs : List α) (c : α)
    (ys : List α) (hall : ∀ x ∈ xs, p x = true) (hc : p c = false) :
    (xs ++ c :: ys).takeWhile p = xs := by
  induction xs with
  | nil => simp [List.takeWhile_cons, hc]
  | cons x xs ih =>
    rw [List.cons_append, List.takeWhile_cons, hall x (List.mem_cons_self _ _)]
    rw [ih fun y hy => hall y (List.mem_cons_of_mem _ hy)]
    simp

theorem dropWhile_append_cons {α : Type} (p : α → Bool) (xs : List α) (c : α)
    (ys : List α) (hall : ∀ x ∈ xs, p x = true) (hc : p c = false) :
    (xs ++ c :: ys).dropWhile p = c :: ys := by
  induction xs with
  | nil => simp [List.dropWhile_cons, hc]
  | cons x xs ih =>
    rw [List.cons_append, List.dropWhile_cons, hall x (List.mem_cons_self _ _)]
    simp only [if_true]
    exact ih fun y hy => hall y (List.mem_cons_of_mem _ hy)

theorem notColon_of_digit (x : Char) (h : isDigitChar x = true) :
    notColon x = true := by
  rw [notColon, Bool.not_eq_true', beq_eq_false_iff_ne]
  exact isDigitChar_ne x ':' h (by decide)

theorem NewDiffFromString_String (d : Diff) (h1 : d.offset < 2 ^ 32)
    (h2 : d.text.length < 2 ^ 32) :
    NewDiffFromString (Diff.String d) = some d := by
  obtain ⟨i, o, t⟩ := d
  simp only at h1 h2
  have hA : ∀ x ∈ natToString o, notColon x = true :=
    fun x hx => notColon_of_digit x (natToString_digits _ x hx)
  have hB : ∀ x ∈ natToString t.length, notColon x = true :=
    fun x hx => notColon_of_digit x (natToString_digits _ x hx)
  have hcolon : notColon ':' = false := by decide
  have e1 : (Diff.String ⟨i, o, t⟩).takeWhile notColon = natToString o := by
    rw [Diff.String]
    exact takeWhile_append_cons _ _ _ _ hA hcolon
  have e2 : (Diff.String ⟨i, o, t⟩).dropWhile notColon =
      ':' :: (if i then '+' else '-') :: (natToString t.length ++ ':' :: t) := by
    rw [Diff.String]
    exact dropWhile_append_cons _ _ _ _ hA hcolon
  have e3 : (natToString t.length ++ ':' :: t).takeWhile notColon =
      natToString t.length := takeWhile_append_cons _ _ _ _ hB hcolon
  have e4 : (natToString t.length ++ ':' :: t).dropWhile notColon =
      ':' :: t := dropWhile_append_cons _ _ _ _ hB hcolon
  rw [NewDiffFromString, e1, e2]
  simp only [e3, e4]
  rw [if_pos (by cases i <;> simp)]
  simp only [parseU32_natToString _ h1, parseU32_natToString _ h2, if_pos rfl]
  cases i <;> rfl

/-! ## Absence of separator sequences in printed diffs -/

theorem hasSeq_cons_of_ne_a (a b c : Char) (s : List Char) (h : c ≠ a) :
    hasSeq a b (c :: s) = hasSeq a b s := by
  cases s with
  | nil => simp [hasSeq]
  | cons d rest => simp [hasSeq, h]

theorem getLast?_ne_of_forall {s : List Char} {x : Char}
    (h : ∀ c ∈ s, c ≠ x) : ¬(s.getLast? = some x) := by
  intro e
  have hx : x ∈ s.getLast? := by rw [e]; exact rfl
  rcases List.mem_getLast?_eq_getLast hx with ⟨hne, hxe⟩
  exact h x (hxe ▸ List.getLast_mem hne) rfl

theorem digits_getLast_ne (n : Nat) (x : Char) (hx : isDigitChar x = false) :
    ¬((natToString n).getLast? = some x) :=
  getLast?_ne_of_forall fun c hc => isDigitChar_ne c x (natToString_digits n c hc) hx

theorem hasSeq_colon_nl_diffString (d : Diff) (ht : textOk d.text) :
    hasSeq ':' '\n' (Diff.String d) = false := by
  obtain ⟨ht1, ht2, ht3⟩ := ht
  have hColonText : hasSeq ':' '\n' (':' :: d.text) = false := by
    cases he : d.text with
    | nil => rfl
    | cons h rest =>
      rw [hasSeq]
      simp only [Bool.or_eq_false_iff]
      constructor
      · simp only [Bool.and_eq_false_iff, decide_eq_false_iff_not]
        right
        intro hh
        rw [he] at ht1
        simp [hh] at ht1
      · rw [← he]
        exact ht2
  have hB : hasSeq ':' '\n' (natToString d.text.length ++ ':' :: d.text) = false := by
    apply hasSeq_append_false
    · exact hasSeq_false_of_ne_a _ _ _ fun c hc =>
        isDigitChar_ne c ':' (natToString_digits _ c hc) (by decide)
    · exact hColonText
    · intro hc
      exact digits_getLast_ne _ ':' (by decide) hc.1
  have hOp : hasSeq ':' '\n'
      ((if d.insertion then '+' else '-') :: (natToString d.text.length ++ ':' :: d.text)) =
      false := by
    rw [hasSeq_cons_of_ne_a _ _ _ _ (by cases d.insertion <;> simp)]
    exact hB
  have hTail : hasSeq ':' '\n'
      (':' :: (if d.insertion then '+' else '-') :: (natToString d.text.length ++ ':' :: d.text)) =
      false := by
    rw [hasSeq]
    simp only [Bool.or_eq_false_iff]
    refine ⟨?_, hOp⟩
    simp only [Bool.and_eq_false_iff, decide_eq_false_iff_not]
    right
    cases d.insertion <;> simp
  rw [Diff.String]
  apply hasSeq_append_false
  · exact hasSeq_false_of_ne_a _ _ _ fun c hc =>
      isDigitChar_ne c ':' (natToString_digits _ c hc) (by decide)
  · exact hTail
  · intro hc
    exact digits_getLast_ne _ ':' (by decide) hc.1

theorem hasSeq_comma_nl_diffString (d : Diff) (ht : textOk d.text) :
    hasSeq ',' '\n' (Diff.String d) = false := by
  obtain ⟨ht1, ht2, ht3⟩ := ht
  have hColonText : hasSeq ',' '\n' (':' :: d.text) = false := by
    rw [hasSeq_cons_of_ne_a _ _ _ _ (by decide)]
    exact ht3
  have hB : hasSeq ',' '\n' (natToString d.text.length ++ ':' :: d.text) = false := by
    apply hasSeq_append_false
    · exact hasSeq_false_of_ne_a _ _ _ fun c hc =>
        isDigitChar_ne c ',' (natToString_digits _ c hc) (by decide)
    · exact hColonText
    · intro hc
      exact digits_getLast_ne _ ',' (by decide) hc.1
  have hOp : hasSeq ',' '\n'
      ((if d.insertion then '+' else '-') :: (natToString d.text.length ++ ':' :: d.text)) =
      false := by
    rw [hasSeq_cons_of_ne_a _ _ _ _ (by cases d.insertion <;> simp)]
    exact hB
  have hTail : hasSeq ',' '\n'
      (':' :: (if d.insertion then '+' else '-') :: (natToString d.text.length ++ ':' :: d.text)) =
      false := by
    rw [hasSeq_cons_of_ne_a _ _ _ _ (by decide)]
    exact hOp
  rw [Diff.String]
  apply hasSeq_append_false
  · exact hasSeq_false_of_ne_a _ _ _ fun c hc =>
      isDigitChar_ne c ',' (natToString_digits _ c hc) (by decide)
  · exact hTail
  · intro hc
    exact digits_getLast_ne _ ',' (by decide) hc.1

/-! ## Patch print/parse round trip -/

theorem split2_sepJoin (ss : List (List Char)) (hne : ss ≠ [])
    (h : ∀ s ∈ ss, hasSeq ',' '\n' s = false) :
    split2 ',' '\n' (sepJoin ss) = ss := by
  induction ss using sepJoin.induct with
  | case1 => exact absurd rfl hne
  | case2 s =>
    rw [sepJoin]
    exact split2_of_not_hasSeq _ _ _ (h s (List.mem_singleton_self _))
  | case3 s t rest ih =>
    rw [sepJoin, split2_append _ _ (by decide) _ _ (h s (List.mem_cons_self _ _))]
    rw [ih (by simp) fun x hx => h x (List.mem_cons_of_mem _ hx)]

theorem hasSeq_colon_nl_sepJoin (ss : List (List Char))
    (h : ∀ s ∈ ss, hasSeq ':' '\n' s = false) :
    hasSeq ':' '\n' (sepJoin ss) = false := by
  induction ss using sepJoin.induct with
  | case1 => rfl
  | case2 s => exact h s (List.mem_singleton_self _)
  | case3 s t rest ih =>
    rw [sepJoin]
    apply hasSeq_append_false
    · exact h s (List.mem_cons_self _ _)
    · rw [hasSeq_cons_of_ne_a _ _ _ _ (by decide), hasSeq_cons_of_ne_a _ _ _ _ (by decide)]
      exact ih fun x hx => h x (List.mem_cons_of_mem _ hx)
    · intro hc
      simp at hc

theorem intToString_chars (v : Int) :
    ∀ c ∈ intToString v, isDigitChar c = true ∨ c = '-' := by
  intro c hc
  rw [intToString] at hc
  split at hc
  · rcases List.mem_cons.mp hc with hc | hc
    · exact Or.inr hc
    · exact Or.inl (natToString_digits _ _ hc)
  · exact Or.inl (natToString_digits _ _ hc)

theorem intToString_ne_colon (v : Int) : ∀ c ∈ intToString v, c ≠ ':' := by
  intro c hc
  rcases intToString_chars v c hc with h | h
  · exact isDigitChar_ne c ':' h (by decide)
  · rw [h]; decide

theorem mapM_parse_print (cs : List Diff) (h : ∀ d ∈ cs, diffOk d) :
    (cs.map Diff.String).mapM NewDiffFromString = some cs := by
  induction cs with
  | nil => rfl
  | cons d cs ih =>
    rcases h d (List.mem_cons_self _ _) with ⟨h1, h2, _⟩
    rw [List.map_cons, List.mapM_cons, NewDiffFromString_String d h1 h2,
      ih fun x hx => h x (List.mem_cons_of_mem _ hx)]
    rfl

theorem parse_print_roundtrip (p : Patch) (hne : p.Changes ≠ [])
    (hv1 : -(2 ^ 63) ≤ p.BaseVersion) (hv2 : p.BaseVersion < 2 ^ 63)
    (hd : ∀ d ∈ p.Changes, diffOk d) :
    NewPatchFromString (Patch.String p) = some p := by
  obtain ⟨v, cs⟩ := p
  simp only at hne hv1 hv2 hd
  have hdrNoColon : ∀ c ∈ 'v' :: intToString v, c ≠ ':' := by
    intro c hc
    rcases List.mem_cons.mp hc with hc | hc
    · rw [hc]; decide
    · exact intToString_ne_colon v c hc
  have hdrNoSeq : hasSeq ':' '\n' ('v' :: intToString v) = false :=
    hasSeq_false_of_ne_a _ _ _ hdrNoColon
  have bodyNoSeq : hasSeq ':' '\n' (sepJoin (cs.map Diff.String)) = false := by
    apply hasSeq_colon_nl_sepJoin
    intro s hs
    rcases List.mem_map.mp hs with ⟨d, hdm, rfl⟩
    exact hasSeq_colon_nl_diffString d (hd d hdm).2.2
  have eSplit : split2 ':' '\n' (Patch.String ⟨v, cs⟩) =
      ('v' :: intToString v) :: [sepJoin (cs.map Diff.String)] := by
    rw [Patch.String]
    rw [split2_append _ _ (by decide) _ _ hdrNoSeq,
      split2_of_not_hasSeq _ _ _ bodyNoSeq]
  have eBody : split2 ',' '\n' (sepJoin (cs.map Diff.String)) = cs.map Diff.String := by
    apply split2_sepJoin
    · simpa using hne
    · intro s hs
      rcases List.mem_map.mp hs with ⟨d, hdm, rfl⟩
      exact hasSeq_comma_nl_diffString d (hd d hdm).2.2
  have hlen : ¬(('v' :: intToString v).length ≤ 1) := by
    rw [List.length_cons]
    have : intToString v ≠ [] := by
      rw [intToString]
      split
      · simp
      · exact natToString_ne_nil _
    have := List.length_pos.mpr this
    omega
  rw [NewPatchFromString, eSplit]
  simp only [List.drop_succ_cons, List.drop_zero]
  rw [if_neg hlen, parseInt64_intToString v hv1 hv2]
  simp only
  rw [eBody, mapM_parse_print cs hd]

/-! ## Transform and Undo lemmas -/

theorem transform_foldl_snd (os : List Patch) :
    ∀ (ds : Diffs) (m : Int),
      (os.foldl
        (fun (acc : Diffs × Int) o =>
          (acc.1.flatMap (fun d => d.transform o.Changes), max acc.2 o.BaseVersion))
        (ds, m)).2 =
      os.foldl (fun m o => max m o.BaseVersion) m := by
  induction os with
  | nil => intro ds m; rfl
  | cons o os ih => intro ds m; exact ih _ _

theorem foldl_max_max (os : List Patch) :
    ∀ (x y : Int),
      os.foldl (fun m o => max m o.BaseVersion) (max x y) =
        max x (os.foldl (fun m o => max m o.BaseVersion) y) := by
  induction os with
  | nil => intro x y; rfl
  | cons o os ih =>
    intro x y
    simp only [List.foldl_cons]
    rw [max_assoc, ih]

theorem undoAux_eq (cs : Diffs) :
    ∀ n, n ≤ cs.length → undoAux cs n = ((cs.take n).reverse).map Diff.Undo := by
  intro n
  induction n with
  | zero => intro h; rfl
  | succ n ih =>
    intro h
    have hn : n < cs.length := Nat.lt_of_succ_le h
    rw [undoAux, List.get?_eq_getElem?, List.getElem?_eq_getElem hn]
    rw [ih (Nat.le_of_lt hn), List.take_succ, List.getElem?_eq_getElem hn]
    simp only [Option.toList_some, List.reverse_append, List.reverse_cons, List.reverse_nil,
      List.nil_append, List.singleton_append, List.map_cons]

/-! ## Claim theorems -/

/-- **C1** (code bug, divergence witness): TP1 fails on the code.  With
base `s = ""` and the concurrent patches `a = v1: insert "1" at 0` and
`b = v1: insert "2" at 0`, one peer computes
`apply(apply(s, a), b.Transform [a]) = "12"` while the other computes
`apply(apply(s, b), a.Transform [b]) = "21"`: `Patch.Transform` applies
no tie-break for equal-offset insertions (both are shifted right), so
the two application orders do not converge. -/
theorem transform_tp1_divergence :
    ((applyPatch [] ⟨1, [⟨true, 0, ['1']⟩]⟩).bind fun s1 =>
        applyPatch s1 (Patch.Transform ⟨1, [⟨true, 0, ['2']⟩]⟩ [⟨1, [⟨true, 0, ['1']⟩]⟩])) =
      some ['1', '2'] ∧
    ((applyPatch [] ⟨1, [⟨true, 0, ['2']⟩]⟩).bind fun s1 =>
        applyPatch s1 (Patch.Transform ⟨1, [⟨true, 0, ['1']⟩]⟩ [⟨1, [⟨true, 0, ['2']⟩]⟩])) =
      some ['2', '1'] ∧
    (['1', '2'] : List Char) ≠ ['2', '1'] := by decide

/-- **C2** (counterexample): `parse(print(p)) == p` fails bytewise on the
code for (i) the empty patch, (ii) a diff text beginning with a newline,
(iii) a diff text containing `",\n"`, and (iv) a diff text containing
`":\n"` — in each case the parser rejects the printed form outright. -/
theorem printParse_roundtrip_counterexample :
    NewPatchFromString (Patch.String ⟨1, []⟩) = none ∧
    NewPatchFromString (Patch.String ⟨1, [⟨true, 0, ['\n', 'x']⟩]⟩) = none ∧
    NewPatchFromString (Patch.String ⟨1, [⟨true, 0, [',', '\n']⟩]⟩) = none ∧
    NewPatchFromString (Patch.String ⟨1, [⟨true, 0, ['a', ':', '\n', 'b']⟩]⟩) = none := by
  decide

/-- **C2** (amended): `parse(print(p)) == p` holds bytewise for every
patch whose base version is in the signed 64-bit range, whose change
list is non-empty, and whose every diff has offset and text length below
`2^32` and a text that does not begin with a newline and contains
neither `":\n"` nor `",\n"`. -/
theorem printParse_roundtrip_amended (p : Patch) (h1 : p.Changes ≠ [])
    (h2 : -(2 ^ 63) ≤ p.BaseVersion) (h3 : p.BaseVersion < 2 ^ 63)
    (h4 : ∀ d ∈ p.Changes, diffOk d) :
    NewPatchFromString (Patch.String p) = some p :=
  parse_print_roundtrip p h1 h2 h3 h4

/-- Witness for the amended C2 at the spec's own S5 example
`v7:\n3:+2:hi,\n10:-4:abcd`. -/
theorem printParse_roundtrip_amended_witness :
    (([⟨true, 3, ['h', 'i']⟩, ⟨false, 10, ['a', 'b', 'c', 'd']⟩] : Diffs) ≠ [] ∧
      -(2 ^ 63) ≤ (7 : Int) ∧ (7 : Int) < 2 ^ 63 ∧
      (∀ d ∈ ([⟨true, 3, ['h', 'i']⟩, ⟨false, 10, ['a', 'b', 'c', 'd']⟩] : Diffs), diffOk d)) ∧
    NewPatchFromString
        (Patch.String ⟨7, [⟨true, 3, ['h', 'i']⟩, ⟨false, 10, ['a', 'b', 'c', 'd']⟩]⟩) =
      some ⟨7, [⟨true, 3, ['h', 'i']⟩, ⟨false, 10, ['a', 'b', 'c', 'd']⟩]⟩ :=
  ⟨⟨by decide, by decide, by decide, by decide⟩,
    printParse_roundtrip_amended _ (by decide) (by decide) (by decide) (by decide)⟩

/-- **C3** (counterexample): the patch parser does not treat the declared
length prefix as authoritative.  For the diff `insert "a,\nb" at 0`
(declared length 4), the printed patch is `v1:\n0:+4:a,\nb`, and parsing
it fails: the body is split at the `",\n"` inside the text before the
length is consulted, so the claim that such a diff is parsed back with
its exact text is false. -/
theorem lengthPrefix_counterexample :
    Patch.String ⟨1, [⟨true, 0, ['a', ',', '\n', 'b']⟩]⟩ =
      ['v', '1', ':', '\n', '0', ':', '+', '4', ':', 'a', ',', '\n', 'b'] ∧
    NewPatchFromString (Patch.String ⟨1, [⟨true, 0, ['a', ',', '\n', 'b']⟩]⟩) = none := by
  decide

/-- **C3** (amended): the parser splits the body at every `",\n"` first
and checks the declared length only inside each fragment; a diff whose
text contains a newline is parsed back with that exact text provided the
text contains neither `",\n"` nor `":\n"` and does not begin with a
newline (`diffOk`). -/
theorem lengthPrefix_amended (v : Int) (d : Diff)
    (hv1 : -(2 ^ 63) ≤ v) (hv2 : v < 2 ^ 63) (hd : diffOk d)
    (_hnl : '\n' ∈ d.text) :
    NewPatchFromString (Patch.String ⟨v, [d]⟩) = some ⟨v, [d]⟩ :=
  parse_print_roundtrip _ (by simp) hv1 hv2
    (fun x hx => by rw [List.mem_singleton.mp hx]; exact hd)

/-- Witness for the amended C3: the diff `insert "a\nb" at 0`, whose text
contains a raw newline, round trips through `v1:\n0:+3:a\nb`. -/
theorem lengthPrefix_amended_witness :
    (-(2 ^ 63) ≤ (1 : Int) ∧ (1 : Int) < 2 ^ 63 ∧
      diffOk ⟨true, 0, ['a', '\n', 'b']⟩ ∧ '\n' ∈ (['a', '\n', 'b'] : List Char)) ∧
    NewPatchFromString (Patch.String ⟨1, [⟨true, 0, ['a', '\n', 'b']⟩]⟩) =
      some ⟨1, [⟨true, 0, ['a', '\n', 'b']⟩]⟩ :=
  ⟨⟨by decide, by decide, by decide, by decide⟩,
    lengthPrefix_amended 1 ⟨true, 0, ['a', '\n', 'b']⟩ (by decide) (by decide) (by decide)
      (by decide)⟩

/-- **C4** (code bug, evaluation): the printer emits exactly `v0:\n` for
a patch with an empty change list, but `NewPatchFromString` rejects that
very string (splitting the empty body on `",\n"` yields one empty
fragment, and the diff parser rejects the empty fragment), so the
spec's empty patch `v<n>:\n` does not parse. -/
theorem emptyPatch_parse_fails :
    Patch.String ⟨0, []⟩ = ['v', '0', ':', '\n'] ∧
    NewPatchFromString ['v', '0', ':', '\n'] = none := by decide

/-- **C5** (counterexample): the parser never checks the literal `v`
prefix.  The input `x5:\n0:+1:a`, whose first character is `x`, is
accepted with base version 5 instead of being rejected. -/
theorem headerValidation_counterexample :
    ('x' : Char) ≠ 'v' ∧
    NewPatchFromString ['x', '5', ':', '\n', '0', ':', '+', '1', ':', 'a'] =
      some ⟨5, [⟨true, 0, ['a']⟩]⟩ := by decide

/-- **C5** (amended): `NewPatchFromString` returns an error whenever the
`":\n"` separator is missing (the split yields a single part), the part
before the first `":\n"` has length at most 1, or the characters of that
part after its first character do not parse as a signed 64-bit decimal;
the first character itself is never inspected. -/
theorem headerValidation_amended (s : List Char)
    (h : (split2 ':' '\n' s).length = 1 ∨
      (split2 ':' '\n' s).headI.length ≤ 1 ∨
      parseInt64 ((split2 ':' '\n' s).headI.drop 1) = none) :
    NewPatchFromString s = none := by
  rw [NewPatchFromString]
  cases hs : split2 ':' '\n' s with
  | nil => exact absurd hs (split2_ne_nil ':' '\n' s)
  | cons p0 tl =>
    cases tl with
    | nil => rfl
    | cons p1 rest =>
      rw [hs] at h
      simp only [List.length_cons, List.headI] at h
      show (if p0.length ≤ 1 then none
        else match parseInt64 (p0.drop 1) with
          | none => none
          | some v =>
            match (split2 ',' '\n' p1).mapM NewDiffFromString with
            | some ds => some (⟨v, ds⟩ : Patch)
            | none => none) = none
      rcases h with h | h | h
      · omega
      · rw [if_pos h]
      · by_cases hl : p0.length ≤ 1
        · rw [if_pos hl]
        · rw [if_neg hl, h]

/-- Witness for the amended C5 at the input `v:\n` (empty version
field). -/
theorem headerValidation_amended_witness :
    ((split2 ':' '\n' ['v', ':', '\n']).length = 1 ∨
      (split2 ':' '\n' ['v', ':', '\n']).headI.length ≤ 1 ∨
      parseInt64 ((split2 ':' '\n' ['v', ':', '\n']).headI.drop 1) = none) ∧
    NewPatchFromString ['v', ':', '\n'] = none :=
  ⟨by decide, headerValidation_amended ['v', ':', '\n'] (by decide)⟩

/-- **C6** (confirmed): for a non-empty `others`, the base version of
`p.Transform others` is `max(p.BaseVersion - 1, max of the others'
base versions) + 1`. -/
theorem transform_baseVersion (p : Patch) (others : List Patch)
    (h : others ≠ []) :
    (p.Transform others).BaseVersion =
      max (p.BaseVersion - 1) (maxBaseVersion others) + 1 := by
  match others, h with
  | o :: os, _ =>
    show (List.foldl _ (p.Changes, p.BaseVersion - 1) (o :: os)).2 + 1 = _
    rw [transform_foldl_snd]
    simp only [List.foldl_cons]
    rw [foldl_max_max, maxBaseVersion]

/-- Witness for C6: `v5` transformed against `[v7]` gets base version
`max(4, 7) + 1 = 8`. -/
theorem transform_baseVersion_witness :
    (([⟨7, []⟩] : List Patch) ≠ []) ∧
    (Patch.Transform ⟨5, []⟩ [⟨7, []⟩]).BaseVersion =
      max ((5 : Int) - 1) (maxBaseVersion [⟨7, []⟩]) + 1 :=
  ⟨by simp, transform_baseVersion ⟨5, []⟩ [⟨7, []⟩] (by simp)⟩

/-- **C7** (confirmed): transforming against the empty list returns a
patch with the same changes, and the §4.3 version rule degenerates to
`(BaseVersion - 1) + 1 = BaseVersion`. -/
theorem transform_nil_identity (p : Patch) :
    p.Transform [] = ⟨p.BaseVersion, p.Changes⟩ := by
  show (⟨p.BaseVersion - 1 + 1, p.Changes⟩ : Patch) = ⟨p.BaseVersion, p.Changes⟩
  rw [Int.sub_add_cancel]

/-- **C8** (confirmed): `Patch.Undo` keeps the base version and produces
the changes in reversed order with each diff's insertion flag flipped
and its offset and text unchanged. -/
theorem undo_reverses_and_inverts (p : Patch) :
    p.Undo = ⟨p.BaseVersion,
      p.Changes.reverse.map fun d => ⟨!d.insertion, d.offset, d.text⟩⟩ := by
  rw [Patch.Undo, undoAux_eq _ _ le_rfl, List.take_length]
  rfl

/-- **C9** (confirmed): `Transform` is associative over list
concatenation, in both the changes and the base version. -/
theorem transform_append_assoc (a : Patch) (xs ys : List Patch) :
    a.Transform (xs ++ ys) = (a.Transform xs).Transform ys := by
  have h : ∀ r : Diffs × Int, (r.1, r.2 + 1 - 1) = r := by
    intro r
    rw [Int.add_sub_cancel]
  simp only [Patch.Transform, List.foldl_append]
  rw [h]

/-- **C10** (confirmed): when the input splits on `":\n"` into three or
more parts, the parser uses only the first two — it behaves exactly as
on the input rebuilt from the first two parts, silently discarding
everything from the second `":\n"` onward. -/
theorem parse_ignores_after_second_sep (s p0 p1 r : List Char)
    (rest : List (List Char)) (h : split2 ':' '\n' s = p0 :: p1 :: r :: rest) :
    NewPatchFromString s = NewPatchFromString (p0 ++ ':' :: '\n' :: p1) := by
  have hp0 : hasSeq ':' '\n' p0 = false :=
    hasSeq_of_mem_split2 ':' '\n' s p0 (by rw [h]; exact List.mem_cons_self _ _)
  have hp1 : hasSeq ':' '\n' p1 = false :=
    hasSeq_of_mem_split2 ':' '\n' s p1
      (by rw [h]; exact List.mem_cons_of_mem _ (List.mem_cons_self _ _))
  have e : split2 ':' '\n' (p0 ++ ':' :: '\n' :: p1) = [p0, p1] := by
    rw [split2_append _ _ (by decide) _ _ hp0, split2_of_not_hasSeq _ _ _ hp1]
  rw [NewPatchFromString, NewPatchFromString, h, e]

/-- Witness for C10: `v1:\n0:+2:hi:\njunk` splits into three parts and
parses exactly like `v1:\n0:+2:hi`. -/
theorem parse_ignores_after_second_sep_witness :
    split2 ':' '\n' ['v', '1', ':', '\n', '0', ':', '+', '2', ':', 'h', 'i', ':', '\n',
        'j', 'u', 'n', 'k'] =
      [['v', '1'], ['0', ':', '+', '2', ':', 'h', 'i'], ['j', 'u', 'n', 'k']] ∧
    NewPatchFromString ['v', '1', ':', '\n', '0', ':', '+', '2', ':', 'h', 'i', ':', '\n',
        'j', 'u', 'n', 'k'] =
      NewPatchFromString (['v', '1'] ++ ':' :: '\n' :: ['0', ':', '+', '2', ':', 'h', 'i']) :=
  ⟨by decide,
    parse_ignores_after_second_sep
      ['v', '1', ':', '\n', '0', ':', '+', '2', ':', 'h', 'i', ':', '\n', 'j', 'u', 'n', 'k']
      ['v', '1'] ['0', ':', '+', '2', ':', 'h', 'i'] ['j', 'u', 'n', 'k'] [] (by decide)⟩

end Patching
